import Mathlib

/-!
Verification of the redshift-refinement core of the `redrock` repository
(`redrock/fitz.py`, `redrock/targets.py`, `redrock/constants.py`).

The Python source is shallowly embedded: floating-point quantities are
modelled by exact rationals `ℚ`, numpy arrays by `List ℚ`, bitwise
quality-flag words by `Nat` with `|||`/`&&&`, and the external
collaborators (`calc_zchi2_one`, `rebin_template`,
`transmitted_flux_fraction`) by explicit oracle inputs, as the spec
treats them as interfaces only.
-/

namespace Redrock

/-- Embeds `redrock.constants.max_velo_diff = 1000.0` (km/s). -/
def max_velo_diff : ℚ := 1000

/-- Embeds `scipy.constants.speed_of_light/1000.` (km/s), the constant `c`
computed inside `get_dv` (`fitz.py` line 38); `speed_of_light` is exactly
299792458 m/s. -/
def c_kms : ℚ := 299792458 / 1000

namespace ZW

/-- Modelled from the spec: the module `redrock.zwarning` defining
`ZWarningMask` is not among the provided sources; the spec describes the
quality flags only as bitwise-combinable codes, so `Z_FITLIMIT` is
modelled as a dedicated bit. -/
def Z_FITLIMIT : Nat := 32

/-- Modelled from the spec: the module `redrock.zwarning` defining
`ZWarningMask` is not among the provided sources; the spec describes the
quality flags only as bitwise-combinable codes, so `BAD_MINFIT` is
modelled as a dedicated bit, distinct from `Z_FITLIMIT`. -/
def BAD_MINFIT : Nat := 1024

end ZW

/-- Embeds `fitz.get_dv` (`fitz.py` lines 26-41):
`dv = c * (z - zref) / (1.0 + zref)` with `c` in km/s. -/
def get_dv (z zref : ℚ) : ℚ := c_kms * (z - zref) / (1 + zref)

/-- Embeds the per-index qualification rule of `fitz.find_minima`
(`fitz.py` line 61): position `i` is kept iff
`(i = 0 or x[i] <= x[i-1]) and (i = last or x[i] <= x[i+1])`,
exactly the two shifted comparisons `np.r_[True, x[1:]<=x[:-1]]` and
`np.r_[x[:-1]<=x[1:], True]`. -/
def qualifies (x : List ℚ) (i : Nat) : Bool :=
  (i == 0 || decide (x.getD i 0 ≤ x.getD (i - 1) 0)) &&
  (i == x.length - 1 || decide (x.getD i 0 ≤ x.getD (i + 1) 0))

/-- Embeds `fitz.find_minima` (`fitz.py` lines 44-65): collect the indices
satisfying the qualification rule (`ii`), then reorder them by ascending
value `x[i]` (`jj = np.argsort(x[ii]); return ii[jj]`). -/
def find_minima (x : List ℚ) : List Nat :=
  List.insertionSort (fun i j => x.getD i 0 ≤ x.getD j 0)
    ((List.range x.length).filter (fun i => qualifies x i))

/-- Abstraction of one coarse minimum processed by the `fitz` loop
(`fitz.py` lines 144-246): `zcoarse` is `redshifts[imin]`, and
`zbest`/`chi2` are the refined redshift and chi-square this minimum would
contribute after the fine re-scan, `minfit` and the out-of-bracket
correction (steps whose internals are embedded separately below); the
claims about the loop concern only which candidates are accepted. -/
structure FitCand where
  zcoarse : ℚ
  zbest : ℚ
  chi2 : ℚ
deriving DecidableEq

/-- One accepted entry of the `results` list built by `fitz`
(`fitz.py` line 244), restricted to the fields the loop itself reads
(`z`) and the final sort key (`chi2`). -/
structure RRes where
  z : ℚ
  chi2 : ℚ
deriving DecidableEq

/-- Embeds the velocity de-duplication test of `fitz`
(`fitz.py` lines 150-153 and 239-242):
`np.any(np.abs(get_dv(z, zprev)) < constants.max_velo_diff)` where
`zprev` collects the redshifts of the already-accepted results. -/
def dedupHit (results : List RRes) (z : ℚ) : Bool :=
  results.any (fun r => decide (|get_dv z r.z| < max_velo_diff))

/-- Embeds one iteration of the minima loop of `fitz`
(`fitz.py` lines 144-246): stop once `nminima` results exist, skip the
minimum if its coarse redshift collides with a previous result, skip it
if its refined redshift collides with a previous result, otherwise append
it. -/
def fitzStep (nminima : Nat) (results : List RRes) (c : FitCand) : List RRes :=
  if results.length = nminima then results
  else if dedupHit results c.zcoarse then results
  else if dedupHit results c.zbest then results
  else results ++ [⟨c.zbest, c.chi2⟩]

/-- Embeds the full accumulation loop of `fitz` over the coarse minima
(in the order produced by `find_minima`), starting from the empty
`results` list (`fitz.py` lines 142-246). -/
def fitzAccum (nminima : Nat) (cands : List FitCand) : List RRes :=
  cands.foldl (fitzStep nminima) []

/-- Embeds the final reordering of `fitz`
(`fitz.py` lines 248-250): `results` sorted by ascending `chi2`
(`np.argsort([tmp['chi2'] for tmp in results])`). -/
def fitzTable (nminima : Nat) (cands : List FitCand) : List RRes :=
  List.insertionSort (fun a b => a.chi2 ≤ b.chi2) (fitzAccum nminima cands)

lemma dedupHit_false {results : List RRes} {z : ℚ}
    (h : dedupHit results z = false) :
    ∀ r ∈ results, max_velo_diff ≤ |get_dv z r.z| := by
  intro r hr
  have := (List.any_eq_false.mp h) r hr
  simpa [not_lt] using this

lemma fitzStep_pairwise {n : Nat} {rs : List RRes} {c : FitCand}
    (h : List.Pairwise (fun a b => max_velo_diff ≤ |get_dv b.z a.z|) rs) :
    List.Pairwise (fun a b => max_velo_diff ≤ |get_dv b.z a.z|)
      (fitzStep n rs c) := by
  unfold fitzStep
  split
  · exact h
  · split
    · exact h
    · split
      · exact h
      · next _ _ hfine =>
        rw [List.pairwise_append]
        refine ⟨h, List.pairwise_singleton _ _, ?_⟩
        intro a ha b hb
        rcases List.mem_singleton.mp hb with rfl
        exact dedupHit_false (Bool.eq_false_iff.mpr hfine) a ha

lemma fitzAccum_go_pairwise (n : Nat) (cands : List FitCand)
    (rs : List RRes)
    (h : List.Pairwise (fun a b => max_velo_diff ≤ |get_dv b.z a.z|) rs) :
    List.Pairwise (fun a b => max_velo_diff ≤ |get_dv b.z a.z|)
      (cands.foldl (fitzStep n) rs) := by
  induction cands generalizing rs with
  | nil => simpa using h
  | cons c cs ih =>
    simp only [List.foldl_cons]
    exact ih _ (fitzStep_pairwise h)

/-- Claim C2: in every table returned by `fitz`, any candidate accepted
later has, against every candidate accepted earlier, a velocity offset
`|c·(z−zref)/(1+zref)|` of at least `max_velo_diff = 1000` km/s; the
final table is a permutation (chi-square reordering) of the
acceptance-ordered list, so no two such colliding minima both appear. -/
theorem fitz_velocity_dedup (nminima : Nat) (cands : List FitCand) :
    List.Pairwise (fun earlier later =>
        max_velo_diff ≤ |get_dv later.z earlier.z|)
      (fitzAccum nminima cands) ∧
    (fitzTable nminima cands).Perm (fitzAccum nminima cands) := by
  constructor
  · exact fitzAccum_go_pairwise nminima cands [] (by simp)
  · exact List.perm_insertionSort _ _

lemma mem_find_minima_iff (x : List ℚ) (i : Nat) :
    i ∈ find_minima x ↔ i < x.length ∧ qualifies x i = true := by
  unfold find_minima
  rw [(List.perm_insertionSort _ _).mem_iff, List.mem_filter, List.mem_range]

lemma qualifies_iff (x : List ℚ) (i : Nat) :
    qualifies x i = true ↔
      (i = 0 ∨ x.getD i 0 ≤ x.getD (i - 1) 0) ∧
      (i = x.length - 1 ∨ x.getD i 0 ≤ x.getD (i + 1) 0) := by
  unfold qualifies
  simp

lemma qualifies_of_min {x : List ℚ} {m : Nat} (hm : m < x.length)
    (hmin : ∀ j, j < x.length → x.getD m 0 ≤ x.getD j 0) :
    qualifies x m = true := by
  rw [qualifies_iff]
  refine ⟨?_, ?_⟩
  · rcases Nat.eq_zero_or_pos m with h0 | _
    · exact Or.inl h0
    · exact Or.inr (hmin (m - 1) (lt_of_le_of_lt (Nat.sub_le _ _) hm))
  · by_cases hl : m = x.length - 1
    · exact Or.inl hl
    · refine Or.inr (hmin (m + 1) ?_)
      omega

lemma find_minima_nonempty {x : List ℚ} (hx : x ≠ []) :
    find_minima x ≠ [] := by
  have hlen : 0 < x.length := List.length_pos.mpr hx
  obtain ⟨m, hm, hmin⟩ := Finset.exists_min_image (Finset.range x.length)
    (fun i => x.getD i 0) ⟨0, Finset.mem_range.mpr hlen⟩
  rw [Finset.mem_range] at hm
  have hq : qualifies x m = true :=
    qualifies_of_min hm (fun j hj => hmin j (Finset.mem_range.mpr hj))
  exact List.ne_nil_of_mem ((mem_find_minima_iff x m).mpr ⟨hm, hq⟩)

lemma eq_singleton_of_nodup {l : List Nat} {m : Nat} (hnd : l.Nodup)
    (hall : ∀ a ∈ l, a = m) (hm : m ∈ l) : l = [m] := by
  cases l with
  | nil => cases hm
  | cons a t =>
    have ha : a = m := hall a (by simp)
    subst ha
    have ht : t = [] := by
      cases t with
      | nil => rfl
      | cons b t2 =>
        have hb : b = a := hall b (by simp)
        rw [List.nodup_cons] at hnd
        exact absurd (by simp [hb.symm]) hnd.1
    rw [ht]

/-- Claim C3 (amended): `find_minima` returns exactly the indices
satisfying `(i = 0 or x[i] ≤ x[i-1]) and (i = last or x[i] ≤ x[i+1])`,
reordered by ascending chi-square value `x[i]` (not by index); a flat
array of length `L` yields indices including both `0` and `L−1`, and a
strictly unimodal array yields exactly the one index of its minimum. -/
theorem find_minima_characterization (x : List ℚ) (hx : x ≠ []) :
    (∀ i, i ∈ find_minima x ↔ i < x.length ∧ qualifies x i = true) ∧
    List.Pairwise (fun i j => x.getD i 0 ≤ x.getD j 0) (find_minima x) ∧
    ((∀ i, i < x.length → ∀ j, j < x.length → x.getD i 0 = x.getD j 0) →
      0 ∈ find_minima x ∧ x.length - 1 ∈ find_minima x) ∧
    (∀ m, m < x.length →
      (∀ i, i < m → x.getD (i + 1) 0 < x.getD i 0) →
      (∀ i, m ≤ i → i + 1 < x.length → x.getD i 0 < x.getD (i + 1) 0) →
      find_minima x = [m]) := by
  have hlen : 0 < x.length := List.length_pos.mpr hx
  refine ⟨mem_find_minima_iff x, ?_, ?_, ?_⟩
  · haveI : IsTotal Nat (fun i j => x.getD i 0 ≤ x.getD j 0) :=
      ⟨fun a b => le_total _ _⟩
    haveI : IsTrans Nat (fun i j => x.getD i 0 ≤ x.getD j 0) :=
      ⟨fun _ _ _ hab hbc => le_trans hab hbc⟩
    exact List.sorted_insertionSort _ _
  · intro hflat
    have h0 : qualifies x 0 = true :=
      qualifies_of_min hlen (fun j hj => le_of_eq (hflat 0 hlen j hj))
    have hl : x.length - 1 < x.length := by omega
    have h1 : qualifies x (x.length - 1) = true :=
      qualifies_of_min hl (fun j hj => le_of_eq (hflat _ hl j hj))
    exact ⟨(mem_find_minima_iff x 0).mpr ⟨hlen, h0⟩,
      (mem_find_minima_iff x _).mpr ⟨hl, h1⟩⟩
  · intro m hm hdec hinc
    have hqm : qualifies x m = true := by
      rw [qualifies_iff]
      refine ⟨?_, ?_⟩
      · rcases Nat.eq_zero_or_pos m with h0 | hpos
        · exact Or.inl h0
        · refine Or.inr (le_of_lt ?_)
          have := hdec (m - 1) (by omega)
          simpa [Nat.sub_add_cancel hpos] using this
      · by_cases hlast : m = x.length - 1
        · exact Or.inl hlast
        · exact Or.inr (le_of_lt (hinc m le_rfl (by omega)))
    have hother : ∀ i, i < x.length → i ≠ m → qualifies x i = false := by
      intro i hi hne
      rw [← Bool.not_eq_true, qualifies_iff]
      rcases Nat.lt_or_ge i m with hlt | hge
      · rintro ⟨-, h2 | h2⟩
        · omega
        · exact absurd h2 (not_le.mpr (hdec i hlt))
      · have hgt : m < i := lt_of_le_of_ne hge (Ne.symm hne)
        rintro ⟨h1 | h1, -⟩
        · omega
        · have hstep : x.getD (i - 1) 0 < x.getD i 0 := by
            have := hinc (i - 1) (by omega) (by omega)
            simpa [Nat.sub_add_cancel (by omega : 1 ≤ i)] using this
          exact absurd h1 (not_le.mpr hstep)
    have hfilter :
        (List.range x.length).filter (fun i => qualifies x i) = [m] := by
      refine eq_singleton_of_nodup ((List.nodup_range _).filter _) ?_ ?_
      · intro a ha
        rw [List.mem_filter, List.mem_range] at ha
        by_contra hne
        rw [hother a ha.1 hne] at ha
        exact Bool.false_ne_true ha.2
      · exact List.mem_filter.mpr ⟨List.mem_range.mpr hm, hqm⟩
    unfold find_minima
    rw [hfilter]
    rfl

/-- Claim C3 counterexample: for `x = [0,1,3]` the last index `2` is not
returned (edges are not included unconditionally), and for `x = [2,2,0]`
the output `[2,0]` is ordered by ascending value, not ascending index. -/
theorem find_minima_claim_counterexample :
    (2 ∉ find_minima [(0:ℚ), 1, 3]) ∧ find_minima [(2:ℚ), 2, 0] = [2, 0] := by
  decide

/-- Claim C3 witness: the characterization applied to the concrete array
`[3,1,2]`, whose unique local minimum is index `1`. -/
theorem find_minima_characterization_witness :
    1 ∈ find_minima [(3:ℚ), 1, 2] := by
  have h := find_minima_characterization [(3:ℚ), 1, 2] (by decide)
  exact (h.1 1).mpr (by decide)

lemma fitzStep_length_le (n : Nat) (rs : List RRes) (c : FitCand) :
    rs.length ≤ (fitzStep n rs c).length := by
  unfold fitzStep
  split
  · exact le_rfl
  · split
    · exact le_rfl
    · split
      · exact le_rfl
      · simp

lemma fitzAccum_go_length (n : Nat) (cands : List FitCand) (rs : List RRes) :
    rs.length ≤ (cands.foldl (fitzStep n) rs).length := by
  induction cands generalizing rs with
  | nil => simp
  | cons c cs ih =>
    simp only [List.foldl_cons]
    exact le_trans (fitzStep_length_le n rs c) (ih _)

/-- Claim C10 (amended): for every nonempty chi-square array
`find_minima` returns at least one index (the position of a global
minimum always qualifies); the first coarse minimum processed by the
`fitz` loop is always accepted, both velocity de-duplication checks
being vacuous on the empty result list, so for a positive `nminima` the
terminal assertion `len(results) > 0` of `fitz` cannot fail. -/
theorem fitz_assertion_safe (x : List ℚ) (hx : x ≠ [])
    (nminima : Nat) (hn : 1 ≤ nminima) (c : FitCand) (cs : List FitCand) :
    find_minima x ≠ [] ∧
    fitzStep nminima [] c = [⟨c.zbest, c.chi2⟩] ∧
    fitzAccum nminima (c :: cs) ≠ [] := by
  have hstep : fitzStep nminima [] c = [⟨c.zbest, c.chi2⟩] := by
    unfold fitzStep
    rw [if_neg (by simpa using (by omega : ¬ 0 = nminima))]
    simp [dedupHit]
  refine ⟨find_minima_nonempty hx, hstep, ?_⟩
  have hlen : 1 ≤ (fitzAccum nminima (c :: cs)).length := by
    unfold fitzAccum
    rw [List.foldl_cons, hstep]
    simpa using fitzAccum_go_length nminima cs [⟨c.zbest, c.chi2⟩]
  intro hnil
  rw [hnil] at hlen
  simp at hlen

/-- Claim C10 counterexample: for `x = [0,1,7]` the last array edge
(index `2`) does not satisfy the qualification rule of `find_minima`, so
the claim's assertion that both array edges always satisfy it is false;
the returned list is `[0]`. -/
theorem fitz_assertion_claim_counterexample :
    qualifies [(0:ℚ), 1, 7] 2 = false ∧ find_minima [(0:ℚ), 1, 7] = [0] := by
  decide

/-- Claim C10 witness: the amended safety statement applied to a concrete
chi-square array, candidate and `nminima = 3`. -/
theorem fitz_assertion_safe_witness :
    fitzAccum 3 [⟨(1:ℚ), (1:ℚ), (5:ℚ)⟩] ≠ [] := by
  exact (fitz_assertion_safe [(2:ℚ), 1, 2] (by decide) 3 (by decide)
    ⟨(1:ℚ), (1:ℚ), (5:ℚ)⟩ []).2.2

/-- Embeds `np.min` applied to a 0-dimensional (scalar) argument, as in
`np.min(zbest)` at `fitz.py` line 233 where `zbest` is a Python float:
the minimum of a scalar is the scalar itself. -/
def npMinScalar (v : ℚ) : ℚ := v

/-- Embeds `np.where` applied to a 0-dimensional boolean condition, as at
`fitz.py` line 233: numpy treats the scalar as a 0-d array, so
`np.where(cond)[0]` is `[0]` when the condition is true and `[]` when it
is false. -/
def npWhere0d (b : Bool) : List Nat := if b then [0] else []

/-- Embeds the out-of-bracket correction of `fitz`
(`fitz.py` lines 230-235): when the refined `zbest` lies outside the span
of the fine grid `zz`, set `BAD_MINFIT` and replace `zbest` and `chi2min`
by `zz[imin]` and `zzchi2[imin]`, where the code computes
`imin = np.where(zbest == np.min(zbest))[0][0]` — a comparison of the
scalar `zbest` against itself, not a scan of `zzchi2`. -/
def outOfBracketCorrect (zz zzchi2 : List ℚ) (zbest chi2min : ℚ)
    (zwarn : Nat) : ℚ × ℚ × Nat :=
  if zbest < zz.getD 0 0 ∨ zz.getD (zz.length - 1) 0 < zbest then
    let imin := (npWhere0d (zbest == npMinScalar zbest)).getD 0 0
    (zz.getD imin 0, zzchi2.getD imin 0, zwarn ||| ZW.BAD_MINFIT)
  else (zbest, chi2min, zwarn)

/-- Claim C1: the code evaluated at a failing input. With fine grid
`zz = [1,2,3]`, fine chi-squares `zzchi2 = [5,1,9]` and an out-of-bracket
refined redshift `zbest = 10`, the correction sets the bad-fit flag but
replaces `zbest` and `chi2min` with `zz[0] = 1` and `zzchi2[0] = 5`
(since `np.where(zbest == np.min(zbest))` on a scalar always yields
index 0), whereas the sample of lowest chi-square is `zz[1] = 2` with
`zzchi2[1] = 1`: the returned chi-square `5` is not the minimum of
`zzchi2`, contradicting the claim and the code's own comment. -/
theorem out_of_bracket_code_bug :
    outOfBracketCorrect [(1:ℚ), 2, 3] [5, 1, 9] 10 7 0 =
      (1, 5, ZW.BAD_MINFIT) ∧
    (∀ v ∈ [(5:ℚ), 1, 9], 1 ≤ v) ∧ (5:ℚ) ≠ 1 := by
  decide

/-- Embeds the edge-of-range flagging of `fitz`
(`fitz.py` lines 221-228): after `zbest = zmin`, set `Z_FITLIMIT` when
`zbest < redshifts[1] or zbest > redshifts[-2]` and again when
`zmin < redshifts[1] or zmin > redshifts[-2]`; both tests examine the
same refined value, since `zbest` was assigned `zmin` just above and the
out-of-bracket correction only runs later. -/
def edgeFlagStep (redshifts : List ℚ) (zmin : ℚ) (zwarn : Nat) : Nat :=
  let zbest := zmin
  let z1 := redshifts.getD 1 0
  let z2 := redshifts.getD (redshifts.length - 2) 0
  let zw1 := if zbest < z1 ∨ z2 < zbest then zwarn ||| ZW.Z_FITLIMIT else zwarn
  if zmin < z1 ∨ z2 < zmin then zw1 ||| ZW.Z_FITLIMIT else zw1

/-- Claim C4: the code evaluated at a failing input. On the grid
`redshifts = [0,1,2,3]`, a coarse minimum at index 0 has redshift
`0 < redshifts[1] = 1`, i.e. within one grid cell of the low end, yet
with an interior refined redshift `zmin = 2` the flagging step leaves the
warning word at `0`: `Z_FITLIMIT` is never set from the initial
coarse-minimum redshift, because both checks of lines 225-227 test the
refined value (`zbest == zmin` there). -/
theorem edge_flag_code_bug :
    edgeFlagStep [(0:ℚ), 1, 2, 3] 2 0 = 0 ∧
    [(0:ℚ), 1, 2, 3].getD 0 0 < [(0:ℚ), 1, 2, 3].getD 1 0 := by
  decide

/-- Embeds the final coefficient evaluation of `fitz`
(`fitz.py` lines 191-219): the weighted fit at the refined redshift
either succeeds with coefficients or raises `ValueError` — modelled by an
`Option` oracle, since `calc_zchi2_one` is an external collaborator.  On
failure the code substitutes `np.zeros(template.nbasis)` and ors in
`Z_FITLIMIT` and `BAD_MINFIT` when
`zmin < redshifts[0] or redshifts[-1] < zmin`, and re-raises the error
(modelled `Except.error`) otherwise. -/
def finalCoeffEval (redshifts : List ℚ) (zmin : ℚ) (nbasis : Nat)
    (zwarn : Nat) (fit : Option (List ℚ)) : Except Unit (List ℚ × Nat) :=
  match fit with
  | some coeff => Except.ok (coeff, zwarn)
  | none =>
    if zmin < redshifts.getD 0 0 ∨
        redshifts.getD (redshifts.length - 1) 0 < zmin then
      Except.ok (List.replicate nbasis 0,
        zwarn ||| ZW.Z_FITLIMIT ||| ZW.BAD_MINFIT)
    else Except.error ()

/-- Claim C5: when the final fit raises `ValueError` (oracle `none`) and
the refined redshift lies outside the coarse grid bounds, the candidate
receives zero coefficients with both the out-of-range and bad-fit flags
ored in (every bit of either mask is set in the result), and no error
propagates; when the refined redshift is inside the bounds, the error is
re-raised. -/
theorem final_coeff_error_handling (redshifts : List ℚ) (zmin : ℚ)
    (nbasis zwarn : Nat) :
    ((zmin < redshifts.getD 0 0 ∨
        redshifts.getD (redshifts.length - 1) 0 < zmin) →
      finalCoeffEval redshifts zmin nbasis zwarn none =
        Except.ok (List.replicate nbasis 0,
          zwarn ||| ZW.Z_FITLIMIT ||| ZW.BAD_MINFIT) ∧
      (∀ i, (ZW.Z_FITLIMIT).testBit i = true →
        (zwarn ||| ZW.Z_FITLIMIT ||| ZW.BAD_MINFIT).testBit i = true) ∧
      (∀ i, (ZW.BAD_MINFIT).testBit i = true →
        (zwarn ||| ZW.Z_FITLIMIT ||| ZW.BAD_MINFIT).testBit i = true)) ∧
    (¬ (zmin < redshifts.getD 0 0 ∨
        redshifts.getD (redshifts.length - 1) 0 < zmin) →
      finalCoeffEval redshifts zmin nbasis zwarn none = Except.error ()) := by
  constructor
  · intro hout
    refine ⟨?_, ?_, ?_⟩
    · simp only [finalCoeffEval]
      rw [if_pos hout]
    · intro i hi
      simp [Nat.testBit_or, hi]
    · intro i hi
      simp [Nat.testBit_or, hi]
  · intro hin
    simp only [finalCoeffEval]
    rw [if_neg hin]

/-- Claim C5 witness: on the coarse grid `[0,1,2]`, a failing fit at the
out-of-range refined redshift `5` is downgraded to zero coefficients plus
flags, while a failing fit at the in-range refined redshift `1` is
re-raised. -/
theorem final_coeff_error_handling_witness :
    finalCoeffEval [(0:ℚ), 1, 2] 5 2 0 none =
      Except.ok (List.replicate 2 0, 0 ||| ZW.Z_FITLIMIT ||| ZW.BAD_MINFIT) ∧
    finalCoeffEval [(0:ℚ), 1, 2] 1 2 0 none = Except.error () := by
  constructor
  · exact ((final_coeff_error_handling [(0:ℚ), 1, 2] 5 2 0).1 (by decide)).1
  · exact (final_coeff_error_handling [(0:ℚ), 1, 2] 1 2 0).2 (by decide)

/-- Power sum `Σ xᵢᵏ` over the sample points, an entry of the normal
matrix of the degree-2 least-squares fit `np.polyfit(x, y, 2)`
(`fitz.py` line 86). -/
def sSum (pts : List (ℚ × ℚ)) (k : Nat) : ℚ :=
  (pts.map (fun p => p.1 ^ k)).sum

/-- Moment sum `Σ xᵢᵏ·yᵢ` over the sample points, an entry of the
right-hand side of the normal equations of `np.polyfit(x, y, 2)`. -/
def tSum (pts : List (ℚ × ℚ)) (k : Nat) : ℚ :=
  (pts.map (fun p => p.1 ^ k * p.2)).sum

/-- Determinant of the 3×3 normal matrix
`[[s4,s3,s2],[s3,s2,s1],[s2,s1,s0]]` of the least-squares quadratic
fit. -/
def polyfitDet (pts : List (ℚ × ℚ)) : ℚ :=
  sSum pts 4 * (sSum pts 2 * sSum pts 0 - sSum pts 1 * sSum pts 1)
  - sSum pts 3 * (sSum pts 3 * sSum pts 0 - sSum pts 1 * sSum pts 2)
  + sSum pts 2 * (sSum pts 3 * sSum pts 1 - sSum pts 2 * sSum pts 2)

/-- Cramer numerator for the leading coefficient `a`: the normal matrix
with its first column replaced by the moment vector `(t2,t1,t0)`. -/
def polyfitNumA (pts : List (ℚ × ℚ)) : ℚ :=
  tSum pts 2 * (sSum pts 2 * sSum pts 0 - sSum pts 1 * sSum pts 1)
  - tSum pts 1 * (sSum pts 3 * sSum pts 0 - sSum pts 1 * sSum pts 2)
  + tSum pts 0 * (sSum pts 3 * sSum pts 1 - sSum pts 2 * sSum pts 2)

/-- Cramer numerator for the linear coefficient `b`: the normal matrix
with its second column replaced by the moment vector. -/
def polyfitNumB (pts : List (ℚ × ℚ)) : ℚ :=
  - (tSum pts 2 * (sSum pts 3 * sSum pts 0 - sSum pts 1 * sSum pts 2))
  + tSum pts 1 * (sSum pts 4 * sSum pts 0 - sSum pts 2 * sSum pts 2)
  - tSum pts 0 * (sSum pts 4 * sSum pts 1 - sSum pts 2 * sSum pts 3)

/-- Cramer numerator for the constant coefficient `c`: the normal matrix
with its third column replaced by the moment vector. -/
def polyfitNumC (pts : List (ℚ × ℚ)) : ℚ :=
  tSum pts 2 * (sSum pts 3 * sSum pts 1 - sSum pts 2 * sSum pts 2)
  - tSum pts 1 * (sSum pts 4 * sSum pts 1 - sSum pts 3 * sSum pts 2)
  + tSum pts 0 * (sSum pts 4 * sSum pts 2 - sSum pts 3 * sSum pts 3)

/-- Embeds `np.polyfit(x, y, 2)` (`fitz.py` line 86) in exact
arithmetic: the degree-2 least-squares coefficients `(a, b, c)` solve
the 3×3 normal equations, obtained here by Cramer's rule; the
numerically-singular failure case (`np.linalg.LinAlgError`, caught at
line 87) is modelled by a vanishing normal determinant. -/
def polyfit2 (pts : List (ℚ × ℚ)) : Option (ℚ × ℚ × ℚ) :=
  if polyfitDet pts = 0 then none
  else some (polyfitNumA pts / polyfitDet pts,
    polyfitNumB pts / polyfitDet pts,
    polyfitNumC pts / polyfitDet pts)

/-- Embeds `np.min` on a nonempty 1-d array (`fitz.py` line 98). -/
def listMin : List ℚ → ℚ
  | [] => 0
  | h :: t => t.foldl min h

/-- Embeds `np.max` on a nonempty 1-d array (`fitz.py` line 98). -/
def listMax : List ℚ → ℚ
  | [] => 0
  | h :: t => t.foldl max h

/-- Embeds `fitz.minfit` (`fitz.py` lines 68-109): fit
`y = a·x² + b·x + c` by least squares and recast to vertex form
`y = y0 + ((x−x0)/xerr)²`; return the sentinel `(-1,-1,-1,BAD_MINFIT)`
when fewer than 3 points are given, the least-squares fit is singular,
or `a == 0`; flag `BAD_MINFIT` when the vertex leaves the sample
bracket, when `y0 ≤ 0`, or when `a < 0`; `xerr = 1/sqrt(±a)`. The
`xerr` slot lives in `ℝ` because of the square root; everything else is
exact. -/
noncomputable def minfit (x y : List ℚ) : ℚ × ℝ × ℚ × Nat :=
  if x.length < 3 then (-1, -1, -1, ZW.BAD_MINFIT)
  else
    match polyfit2 (x.zip y) with
    | none => (-1, -1, -1, ZW.BAD_MINFIT)
    | some (a, b, c) =>
      if a = 0 then (-1, -1, -1, ZW.BAD_MINFIT)
      else
        let x0 := -b / (2 * a)
        let y0v := -(b ^ 2) / (4 * a) + c
        let zw1 : Nat :=
          if x0 ≤ listMin x ∨ listMax x ≤ x0 then 0 ||| ZW.BAD_MINFIT else 0
        let zw2 : Nat := if y0v ≤ 0 then zw1 ||| ZW.BAD_MINFIT else zw1
        if 0 < a then (x0, 1 / Real.sqrt (a : ℝ), y0v, zw2)
        else (x0, 1 / Real.sqrt (((-a : ℚ)) : ℝ), y0v, zw2 ||| ZW.BAD_MINFIT)

/-- Claim C6: `minfit` returns the sentinel `(-1,-1,-1)` with the
bad-minfit flag, and never raises, whenever fewer than 3 points are
given, the least-squares fit is singular, or the fitted leading
coefficient is exactly zero (as for exactly-collinear points). -/
theorem minfit_degenerate_sentinel (x y : List ℚ)
    (h : x.length < 3 ∨ polyfit2 (x.zip y) = none ∨
      ∃ b c, polyfit2 (x.zip y) = some (0, b, c)) :
    minfit x y = (-1, -1, -1, ZW.BAD_MINFIT) := by
  unfold minfit
  by_cases hlen : x.length < 3
  · rw [if_pos hlen]
  · rw [if_neg hlen]
    rcases h with h | h | ⟨b, c, h⟩
    · exact absurd h hlen
    · rw [h]
    · rw [h]
      simp

/-- Claim C6 witness: two sample points are fewer than 3, so the
sentinel and flag are returned. -/
theorem minfit_degenerate_sentinel_witness :
    minfit [(0:ℚ), 1] [(5:ℚ), 7] = (-1, -1, -1, ZW.BAD_MINFIT) :=
  minfit_degenerate_sentinel [(0:ℚ), 1] [(5:ℚ), 7] (Or.inl (by decide))

lemma sSum_cons (p : ℚ × ℚ) (ps : List (ℚ × ℚ)) (k : Nat) :
    sSum (p :: ps) k = p.1 ^ k + sSum ps k := by
  simp [sSum]

lemma tSum_cons (p : ℚ × ℚ) (ps : List (ℚ × ℚ)) (k : Nat) :
    tSum (p :: ps) k = p.1 ^ k * p.2 + tSum ps k := by
  simp [tSum]

lemma tSum_parab (pts : List (ℚ × ℚ)) (A B C : ℚ)
    (h : ∀ p ∈ pts, p.2 = A * p.1 ^ 2 + B * p.1 + C) (k : Nat) :
    tSum pts k = A * sSum pts (k + 2) + B * sSum pts (k + 1) + C * sSum pts k := by
  induction pts with
  | nil => simp [tSum, sSum]
  | cons p ps ih =>
    have hp := h p (by simp)
    have ihs := ih (fun q hq => h q (by simp [hq]))
    rw [tSum_cons, sSum_cons, sSum_cons, sSum_cons, ihs, hp]
    ring

lemma polyfit2_exact (pts : List (ℚ × ℚ)) (A B C : ℚ)
    (h : ∀ p ∈ pts, p.2 = A * p.1 ^ 2 + B * p.1 + C)
    (hdet : polyfitDet pts ≠ 0) :
    polyfit2 pts = some (A, B, C) := by
  have h2 := tSum_parab pts A B C h 2
  have h1 := tSum_parab pts A B C h 1
  have h0 := tSum_parab pts A B C h 0
  have hA : polyfitNumA pts = A * polyfitDet pts := by
    unfold polyfitNumA polyfitDet
    rw [h2, h1, h0]
    ring
  have hB : polyfitNumB pts = B * polyfitDet pts := by
    unfold polyfitNumB polyfitDet
    rw [h2, h1, h0]
    ring
  have hC : polyfitNumC pts = C * polyfitDet pts := by
    unfold polyfitNumC polyfitDet
    rw [h2, h1, h0]
    ring
  unfold polyfit2
  rw [if_neg hdet, hA, hB, hC,
    mul_div_cancel_right₀ A hdet, mul_div_cancel_right₀ B hdet,
    mul_div_cancel_right₀ C hdet]

/-- Claim C7: for 3 or more sample points lying exactly on the parabola
`y = a(x−x0)² + y0` with `a > 0`, `y0 > 0`, whose `x` values strictly
bracket the vertex and whose least-squares normal system is
nonsingular, `minfit` recovers `x0`, `y0` and `xerr = 1/√a` exactly,
with a zero quality-flag word. -/
theorem minfit_exact_parabola (x y : List ℚ) (a x0 y0 : ℚ)
    (hlen : 3 ≤ x.length) (hleny : y.length = x.length)
    (hpts : ∀ p ∈ x.zip y, p.2 = a * (p.1 - x0) ^ 2 + y0)
    (hdet : polyfitDet (x.zip y) ≠ 0)
    (ha : 0 < a) (hy0 : 0 < y0)
    (hlo : listMin x < x0) (hhi : x0 < listMax x) :
    minfit x y = (x0, 1 / Real.sqrt (a : ℝ), y0, 0) := by
  have hstd : ∀ p ∈ x.zip y,
      p.2 = a * p.1 ^ 2 + (-(2 * a * x0)) * p.1 + (a * x0 ^ 2 + y0) := by
    intro p hp
    rw [hpts p hp]
    ring
  have hfit := polyfit2_exact _ a _ _ hstd hdet
  have hane : a ≠ 0 := ne_of_gt ha
  have hx0 : -(-(2 * a * x0)) / (2 * a) = x0 := by
    field_simp
  have hy0v : -((-(2 * a * x0)) ^ 2) / (4 * a) + (a * x0 ^ 2 + y0) = y0 := by
    field_simp
    ring
  unfold minfit
  rw [if_neg (by omega), hfit]
  simp only []
  rw [if_neg hane, hx0, hy0v,
    if_neg (not_or.mpr ⟨not_le.mpr hlo, not_le.mpr hhi⟩),
    if_neg (not_le.mpr hy0), if_pos ha]

/-- Claim C7 witness: the three points `(0,2), (1,1), (2,2)` lie on
`y = (x−1)² + 1`; `minfit` recovers `x0 = 1`, `y0 = 1`, `xerr = 1/√1`
with zero flags. -/
theorem minfit_exact_parabola_witness :
    minfit [(0:ℚ), 1, 2] [(2:ℚ), 1, 2] = (1, 1 / Real.sqrt ((1:ℚ) : ℝ), 1, 0) := by
  refine minfit_exact_parabola [(0:ℚ), 1, 2] [(2:ℚ), 1, 2] 1 1 1
    (by decide) (by decide) ?_ ?_ (by norm_num) (by norm_num) ?_ ?_
  · intro p hp
    simp only [List.zip, List.zipWith, List.mem_cons, List.not_mem_nil,
      or_false] at hp
    rcases hp with rfl | rfl | rfl <;> norm_num
  · norm_num [polyfitDet, sSum, List.zip, List.zipWith]
  · norm_num [listMin]
  · norm_num [listMax]

/-- Restriction of `targets.Spectrum` to the fields read by the coadd
combination rule of `Target.compute_coadd` (`targets.py` lines
116-160): the grid fingerprint `wavehash`, the flux array and the
inverse-variance array.  The wavelength array and the resolution
operator are not part of claim C8's combination rule for flux and
inverse variance. -/
structure CSpec where
  wavehash : Nat
  flux : List ℚ
  ivar : List ℚ
deriving DecidableEq

/-- Pixel-wise array addition, embedding numpy `+=` on equal-length
arrays. -/
def addVec (u v : List ℚ) : List ℚ := List.zipWith (· + ·) u v

/-- Pixel-wise array multiplication, embedding numpy `*` on equal-length
arrays. -/
def mulVec (u v : List ℚ) : List ℚ := List.zipWith (· * ·) u v

/-- Embeds the `unweightedflux` accumulator of `compute_coadd`
(`targets.py` lines 134, 142): initialized from the first spectrum of
the group, then `+= s.flux` over the rest. -/
def groupUnweighted : List CSpec → List ℚ
  | [] => []
  | s :: r => r.foldl (fun acc t => addVec acc t.flux) s.flux

/-- Embeds the `weightedflux` accumulator of `compute_coadd`
(`targets.py` lines 135, 143): initialized to `s.flux * s.ivar` for the
first spectrum, then `+= s.flux * s.ivar` over the rest. -/
def groupWeighted : List CSpec → List ℚ
  | [] => []
  | s :: r => r.foldl (fun acc t => addVec acc (mulVec t.flux t.ivar))
      (mulVec s.flux s.ivar)

/-- Embeds the `weights` accumulator of `compute_coadd`
(`targets.py` lines 136, 144): initialized from the first spectrum's
`ivar`, then `+= s.ivar` over the rest. -/
def groupWeights : List CSpec → List ℚ
  | [] => []
  | s :: r => r.foldl (fun acc t => addVec acc t.ivar) s.ivar

/-- Three-array pointwise combination, used to embed the final flux
assembly of `compute_coadd`. -/
def zipWith3 (f : ℚ → ℚ → ℚ → ℚ) : List ℚ → List ℚ → List ℚ → List ℚ
  | a :: as, b :: bs, c :: cs => f a b c :: zipWith3 f as bs cs
  | _, _, _ => []

/-- Embeds the combination step of `compute_coadd`
(`targets.py` lines 148-150, 156) for one wavehash group: per pixel,
`flux = weightedflux/(weights + isbad)` with `isbad = (weights == 0)`,
overwritten at bad pixels by `unweightedflux/nspec`; the output
inverse-variance array of the coadded spectrum is `weights`. -/
def coaddFluxIvar (g : List CSpec) : List ℚ × List ℚ :=
  (zipWith3 (fun u f wv =>
      if wv = 0 then u / (g.length : ℚ)
      else f / (wv + (if wv = 0 then 1 else 0)))
    (groupUnweighted g) (groupWeighted g) (groupWeights g),
   groupWeights g)

/-- Embeds the group keys of `compute_coadd` (`targets.py` line 122):
`set([s.wavehash for s in self.spectra])`, one key per distinct
wavelength grid (Python set iteration order is arbitrary; any
deterministic order is a faithful model). -/
def distinctHashes (specs : List CSpec) : List Nat :=
  (specs.map (fun s => s.wavehash)).dedup

/-- Embeds `Target.compute_coadd` (`targets.py` lines 116-160): for each
distinct `wavehash`, combine the spectra of that group (selected by
`if s.wavehash != key: continue`) into one coadded spectrum via
`coaddFluxIvar`. -/
def compute_coadd (specs : List CSpec) : List CSpec :=
  (distinctHashes specs).map (fun k =>
    ⟨k, (coaddFluxIvar (specs.filter (fun s => s.wavehash == k))).1,
     (coaddFluxIvar (specs.filter (fun s => s.wavehash == k))).2⟩)


lemma coaddFluxIvar_fst (g : List CSpec) :
    (coaddFluxIvar g).1 = zipWith3 (fun u f wv =>
      if wv = 0 then u / (g.length : ℚ)
      else f / (wv + (if wv = 0 then 1 else 0)))
    (groupUnweighted g) (groupWeighted g) (groupWeights g) := rfl

lemma coaddFluxIvar_snd (g : List CSpec) :
    (coaddFluxIvar g).2 = groupWeights g := rfl

lemma groupWeights_cons (s : CSpec) (r : List CSpec) :
    groupWeights (s :: r) =
      r.foldl (fun acc t => addVec acc t.ivar) s.ivar := rfl

lemma groupUnweighted_cons (s : CSpec) (r : List CSpec) :
    groupUnweighted (s :: r) =
      r.foldl (fun acc t => addVec acc t.flux) s.flux := rfl

lemma groupWeighted_cons (s : CSpec) (r : List CSpec) :
    groupWeighted (s :: r) =
      r.foldl (fun acc t => addVec acc (mulVec t.flux t.ivar))
        (mulVec s.flux s.ivar) := rfl

lemma addVec_length {u v : List ℚ} (h : v.length = u.length) :
    (addVec u v).length = u.length := by
  simp [addVec, h]

lemma addVec_getD {u v : List ℚ} {j : Nat} (hu : j < u.length)
    (hv : j < v.length) :
    (addVec u v).getD j 0 = u.getD j 0 + v.getD j 0 := by
  have hlen : (addVec u v).length = min u.length v.length := by
    simp [addVec]
  have hj : j < (addVec u v).length := by omega
  rw [List.getD_eq_getElem _ _ hj, List.getD_eq_getElem _ _ hu,
    List.getD_eq_getElem _ _ hv]
  simp [addVec]

lemma foldl_addVec_length (l : List (List ℚ)) (init : List ℚ)
    (h : ∀ v ∈ l, v.length = init.length) :
    (l.foldl addVec init).length = init.length := by
  induction l generalizing init with
  | nil => rfl
  | cons v t ih =>
    have hv : v.length = init.length := h v (by simp)
    have hlen : (addVec init v).length = init.length := addVec_length hv
    rw [List.foldl_cons, ih (addVec init v) (fun u hu => by
      rw [hlen]; exact h u (by simp [hu])), hlen]

lemma foldl_addVec_getD (l : List (List ℚ)) (init : List ℚ)
    (h : ∀ v ∈ l, v.length = init.length) {j : Nat}
    (hj : j < init.length) :
    (l.foldl addVec init).getD j 0 =
      init.getD j 0 + (l.map (fun v => v.getD j 0)).sum := by
  induction l generalizing init with
  | nil => simp
  | cons v t ih =>
    have hv : v.length = init.length := h v (by simp)
    have hlen : (addVec init v).length = init.length := addVec_length hv
    rw [List.foldl_cons, ih (addVec init v) (fun u hu => by
        rw [hlen]; exact h u (by simp [hu])) (by omega),
      addVec_getD hj (by omega), List.map_cons, List.sum_cons]
    ring

lemma zipWith3_getD (f : ℚ → ℚ → ℚ → ℚ) (u v w : List ℚ) (j : Nat)
    (hu : j < u.length) (hv : j < v.length) (hw : j < w.length) :
    (zipWith3 f u v w).getD j 0 =
      f (u.getD j 0) (v.getD j 0) (w.getD j 0) := by
  induction u generalizing v w j with
  | nil => simp at hu
  | cons a as ih =>
    cases v with
    | nil => simp at hv
    | cons b bs =>
      cases w with
      | nil => simp at hw
      | cons c cs =>
        cases j with
        | zero => rfl
        | succ j =>
          simp only [zipWith3, List.getD_cons_succ]
          exact ih bs cs j (by simpa using hu) (by simpa using hv)
            (by simpa using hw)

lemma sum_map_mul_right (l : List CSpec) (f : CSpec → ℚ) (v : ℚ) :
    (l.map (fun s => f s * v)).sum = (l.map f).sum * v := by
  induction l with
  | nil => simp
  | cons a b ih =>
    simp only [List.map_cons, List.sum_cons]
    rw [ih]
    ring

lemma sum_map_const (l : List CSpec) (v : ℚ) :
    (l.map (fun _ => v)).sum = (l.length : ℚ) * v := by
  induction l with
  | nil => simp
  | cons a b ih =>
    simp only [List.map_cons, List.sum_cons, List.length_cons]
    rw [ih]
    push_cast
    ring

/-- Claim C8: per wavehash group, `compute_coadd` produces the
inverse-variance-weighted mean flux, falling back at zero-total-weight
pixels to the unweighted mean over the `nspec` contributing exposures;
the output inverse variance is the sum of the input inverse variances;
and for a group of spectra with identical nonzero per-pixel inverse
variance the flux is the arithmetic mean and the inverse variance is
`N` times the per-exposure value. -/
theorem compute_coadd_correct (specs : List CSpec) (k : Nat)
    (g : List CSpec) (hg : g = specs.filter (fun s => s.wavehash == k))
    (hk : k ∈ distinctHashes specs) (n : Nat)
    (hlen : ∀ s ∈ g, s.ivar.length = n ∧ s.flux.length = n) :
    ((⟨k, (coaddFluxIvar g).1, (coaddFluxIvar g).2⟩ : CSpec) ∈
        compute_coadd specs) ∧
    (∀ j, j < n →
      ((coaddFluxIvar g).2).getD j 0 =
        (g.map (fun s => s.ivar.getD j 0)).sum ∧
      ((coaddFluxIvar g).1).getD j 0 =
        (if (g.map (fun s => s.ivar.getD j 0)).sum = 0
         then (g.map (fun s => s.flux.getD j 0)).sum / (g.length : ℚ)
         else (g.map (fun s => s.flux.getD j 0 * s.ivar.getD j 0)).sum /
           (g.map (fun s => s.ivar.getD j 0)).sum) ∧
      (∀ v : ℚ, (∀ s ∈ g, s.ivar.getD j 0 = v) → v ≠ 0 →
        ((coaddFluxIvar g).1).getD j 0 =
          (g.map (fun s => s.flux.getD j 0)).sum / (g.length : ℚ) ∧
        ((coaddFluxIvar g).2).getD j 0 = (g.length : ℚ) * v)) := by
  constructor
  · unfold compute_coadd
    refine List.mem_map.mpr ⟨k, hk, ?_⟩
    rw [← hg]
  · intro j hj
    have hne : g ≠ [] := by
      have hex : ∃ s ∈ specs, s.wavehash = k := by
        have hk' := hk
        unfold distinctHashes at hk'
        rw [List.mem_dedup, List.mem_map] at hk'
        obtain ⟨s, hs, hsk⟩ := hk'
        exact ⟨s, hs, hsk⟩
      obtain ⟨s, hs, hsk⟩ := hex
      have : s ∈ g := by
        rw [hg, List.mem_filter]
        exact ⟨hs, by simp [hsk]⟩
      exact List.ne_nil_of_mem this
    clear hg hk
    obtain ⟨s0, r, rfl⟩ : ∃ s0 r, g = s0 :: r := by
      cases g with
      | nil => exact absurd rfl hne
      | cons s0 r => exact ⟨s0, r, rfl⟩
    have hs0i : s0.ivar.length = n := (hlen s0 (by simp)).1
    have hs0f : s0.flux.length = n := (hlen s0 (by simp)).2
    have hri : ∀ v ∈ r.map (fun t => t.ivar), v.length = s0.ivar.length := by
      intro v hv
      rw [List.mem_map] at hv
      obtain ⟨t, ht, rfl⟩ := hv
      rw [hs0i]
      exact (hlen t (by simp [ht])).1
    have hrf : ∀ v ∈ r.map (fun t => t.flux),
        v.length = s0.flux.length := by
      intro v hv
      rw [List.mem_map] at hv
      obtain ⟨t, ht, rfl⟩ := hv
      rw [hs0f]
      exact (hlen t (by simp [ht])).2
    have hmullen : ∀ t : CSpec, t.ivar.length = n → t.flux.length = n →
        (mulVec t.flux t.ivar).length = n := by
      intro t h1 h2
      simp [mulVec, h1, h2]
    have hrw : ∀ v ∈ r.map (fun t => mulVec t.flux t.ivar),
        v.length = (mulVec s0.flux s0.ivar).length := by
      intro v hv
      rw [List.mem_map] at hv
      obtain ⟨t, ht, rfl⟩ := hv
      rw [hmullen t (hlen t (by simp [ht])).1 (hlen t (by simp [ht])).2,
        hmullen s0 hs0i hs0f]
    have hwlen : (groupWeights (s0 :: r)).length = n := by
      rw [groupWeights_cons,
        ← List.foldl_map (fun t => t.ivar) addVec r s0.ivar,
        foldl_addVec_length _ _ hri, hs0i]
    have hjw : j < s0.ivar.length := by omega
    have hwget : (groupWeights (s0 :: r)).getD j 0 =
        ((s0 :: r).map (fun s => s.ivar.getD j 0)).sum := by
      rw [groupWeights_cons,
        ← List.foldl_map (fun t => t.ivar) addVec r s0.ivar,
        foldl_addVec_getD _ _ hri hjw, List.map_cons, List.sum_cons,
        List.map_map]
      rfl
    have hulen : (groupUnweighted (s0 :: r)).length = n := by
      rw [groupUnweighted_cons,
        ← List.foldl_map (fun t => t.flux) addVec r s0.flux,
        foldl_addVec_length _ _ hrf, hs0f]
    have hjf : j < s0.flux.length := by omega
    have huget : (groupUnweighted (s0 :: r)).getD j 0 =
        ((s0 :: r).map (fun s => s.flux.getD j 0)).sum := by
      rw [groupUnweighted_cons,
        ← List.foldl_map (fun t => t.flux) addVec r s0.flux,
        foldl_addVec_getD _ _ hrf hjf, List.map_cons, List.sum_cons,
        List.map_map]
      rfl
    have hmulget : ∀ t : CSpec, t.ivar.length = n → t.flux.length = n →
        (mulVec t.flux t.ivar).getD j 0 =
          t.flux.getD j 0 * t.ivar.getD j 0 := by
      intro t h1 h2
      have hjm : j < (mulVec t.flux t.ivar).length := by
        rw [hmullen t h1 h2]
        omega
      rw [List.getD_eq_getElem _ _ hjm,
        List.getD_eq_getElem _ _ (by omega : j < t.flux.length),
        List.getD_eq_getElem _ _ (by omega : j < t.ivar.length)]
      simp [mulVec]
    have hwflen : (groupWeighted (s0 :: r)).length = n := by
      rw [groupWeighted_cons,
        ← List.foldl_map (fun t => mulVec t.flux t.ivar) addVec r _,
        foldl_addVec_length _ _ hrw, hmullen s0 hs0i hs0f]
    have hwfget : (groupWeighted (s0 :: r)).getD j 0 =
        ((s0 :: r).map
          (fun s => s.flux.getD j 0 * s.ivar.getD j 0)).sum := by
      rw [groupWeighted_cons,
        ← List.foldl_map (fun t => mulVec t.flux t.ivar) addVec r _,
        foldl_addVec_getD _ _ hrw
          (by rw [hmullen s0 hs0i hs0f]; omega),
        List.map_cons, List.sum_cons, List.map_map,
        hmulget s0 hs0i hs0f]
      congr 1
      refine congrArg (fun l : List ℚ => l.sum) (List.map_congr_left ?_)
      intro t ht
      simp only [Function.comp_apply]
      exact hmulget t (hlen t (by simp [ht])).1 (hlen t (by simp [ht])).2
    have hfluxget : ((coaddFluxIvar (s0 :: r)).1).getD j 0 =
        (if ((s0 :: r).map (fun s => s.ivar.getD j 0)).sum = 0
         then ((s0 :: r).map (fun s => s.flux.getD j 0)).sum /
           ((s0 :: r).length : ℚ)
         else ((s0 :: r).map
             (fun s => s.flux.getD j 0 * s.ivar.getD j 0)).sum /
           ((s0 :: r).map (fun s => s.ivar.getD j 0)).sum) := by
      rw [coaddFluxIvar_fst,
        zipWith3_getD _ _ _ _ j (by omega) (by omega) (by omega),
        huget, hwfget, hwget]
      by_cases hzero : ((s0 :: r).map (fun s => s.ivar.getD j 0)).sum = 0
      · rw [if_pos hzero, if_pos hzero]
      · rw [if_neg hzero, if_neg hzero, if_neg hzero, add_zero]
    refine ⟨by rw [coaddFluxIvar_snd]; exact hwget, hfluxget, ?_⟩
    intro v hv hvne
    have hconst : ((s0 :: r).map (fun s => s.ivar.getD j 0)).sum =
        (((s0 :: r).length : ℚ)) * v := by
      rw [List.map_congr_left (fun t ht => hv t ht), sum_map_const]
    have hNne : (((s0 :: r).length : ℚ)) ≠ 0 :=
      Nat.cast_ne_zero.mpr (by simp)
    have hsumne : ((s0 :: r).map (fun s => s.ivar.getD j 0)).sum ≠ 0 := by
      rw [hconst]
      exact mul_ne_zero hNne hvne
    constructor
    · rw [hfluxget, if_neg hsumne]
      have hwsum : ((s0 :: r).map
          (fun s => s.flux.getD j 0 * s.ivar.getD j 0)).sum =
          ((s0 :: r).map (fun s => s.flux.getD j 0)).sum * v := by
        rw [List.map_congr_left (fun t ht => by rw [hv t ht]),
          sum_map_mul_right]
      rw [hwsum, hconst]
      rw [mul_comm (((s0 :: r).length : ℚ)) v, ← div_div,
        mul_div_assoc, div_self hvne, mul_one]
    · rw [coaddFluxIvar_snd, hwget, hconst]

/-- Claim C8 witness: two spectra on the same grid (hash 7) with one
pixel each, fluxes 1 and 3 and equal inverse variance 2, coadd to the
arithmetic-mean flux 2 and summed inverse variance 4. -/
theorem compute_coadd_correct_witness :
    ((coaddFluxIvar [(⟨7, [1], [2]⟩ : CSpec), ⟨7, [3], [2]⟩]).1).getD 0 0 = 2 ∧
    ((coaddFluxIvar [(⟨7, [1], [2]⟩ : CSpec), ⟨7, [3], [2]⟩]).2).getD 0 0 = 4 := by
  have h := compute_coadd_correct [(⟨7, [1], [2]⟩ : CSpec), ⟨7, [3], [2]⟩] 7
    [(⟨7, [1], [2]⟩ : CSpec), ⟨7, [3], [2]⟩] (by decide) (by decide) 1
    (by decide)
  have h2 := (h.2 0 (by decide)).2.2 2 (by decide) (by norm_num)
  constructor
  · rw [h2.1]
    norm_num
  · rw [h2.2]
    norm_num

/-- Band-diagonal resolution matrix representation
(`scipy.sparse.dia_matrix`): the band data, the band offsets and the
matrix shape, as stored and restored by the shared-memory packer
(`targets.py` lines 50-52, 76-80). -/
structure DiaMat where
  data : List (List ℚ)
  offsets : List Int
  shape : Nat × Nat
deriving DecidableEq

/-- Compressed-sparse-row resolution matrix representation
(`scipy.sparse.csr_matrix`): data, indices, index pointers and shape, as
stored and restored by the shared-memory packer
(`targets.py` lines 53-56, 82-88). -/
structure CsrMat where
  data : List ℚ
  indices : List Nat
  indptr : List Nat
  shape : Nat × Nat
deriving DecidableEq

/-- Modelled from the spec: `redrock.mpsharedmem` (`fromarray`/`toarray`)
is not among the provided sources; section 4.3 of the spec describes the
packer as materializing the arrays into process-shareable storage and
reconstructing them, so the shared dictionary `_mpshmem` is modelled as
a record holding the array values themselves, with
`toarray (fromarray a) = a`. -/
structure ShMem where
  wave : List ℚ
  flux : List ℚ
  ivar : List ℚ
  Rdata : List (List ℚ)
  Roffsets : List Int
  Rshape : Nat × Nat
  RcsrData : List ℚ
  RcsrIndices : List Nat
  RcsrIndptr : List Nat
  RcsrShape : Nat × Nat
deriving DecidableEq

/-- State of a `targets.Spectrum` with respect to the shared-memory
packer: the numeric fields are `none` when deleted by `sharedmem_pack`
(`del self.wave` etc., `targets.py` lines 58-62), `_mpshared` tracks the
packed flag and `_mpshmem` the lazily-created shared dictionary. -/
structure SpecState where
  wave : Option (List ℚ)
  flux : Option (List ℚ)
  ivar : Option (List ℚ)
  R : Option DiaMat
  Rcsr : Option CsrMat
  mpshared : Bool
  mpshmem : Option ShMem
deriving DecidableEq

/-- The shared dictionary built by the first `sharedmem_pack` from the
unpacked fields (`targets.py` lines 46-56). -/
def shmemOf (w f i : List ℚ) (R : DiaMat) (C : CsrMat) : ShMem :=
  ⟨w, f, i, R.data, R.offsets, R.shape, C.data, C.indices, C.indptr,
   C.shape⟩

/-- Embeds `Spectrum.sharedmem_pack` (`targets.py` lines 41-66): when
not already packed, create the shared dictionary only if it does not yet
exist (`if self._mpshmem is None`), delete the process-local arrays and
mark the spectrum packed; when already packed, do nothing. -/
def sharedmem_pack (s : SpecState) : SpecState :=
  if s.mpshared then s
  else
    { wave := none, flux := none, ivar := none, R := none, Rcsr := none,
      mpshared := true,
      mpshmem := some (match s.mpshmem with
        | some m => m
        | none => shmemOf (s.wave.getD []) (s.flux.getD [])
            (s.ivar.getD []) (s.R.getD ⟨[], [], (0, 0)⟩)
            (s.Rcsr.getD ⟨[], [], [], (0, 0)⟩)) }

/-- Embeds `Spectrum.sharedmem_unpack` (`targets.py` lines 68-91): when
packed, rebuild `wave`, `flux`, `ivar` and both resolution matrices from
the shared dictionary (`dia_matrix((Rdata, Roffsets), shape)` and
`csr_matrix((data, indices, indptr), shape)`) and mark the spectrum
unpacked, keeping the shared dictionary; when already unpacked, do
nothing.  A packed state with no shared dictionary cannot arise from the
embedded operations and is modelled as a no-op. -/
def sharedmem_unpack (s : SpecState) : SpecState :=
  if s.mpshared then
    match s.mpshmem with
    | none => s
    | some m =>
      { wave := some m.wave, flux := some m.flux, ivar := some m.ivar,
        R := some ⟨m.Rdata, m.Roffsets, m.Rshape⟩,
        Rcsr := some ⟨m.RcsrData, m.RcsrIndices, m.RcsrIndptr,
          m.RcsrShape⟩,
        mpshared := false, mpshmem := s.mpshmem }
  else s

lemma sharedmem_pack_of_packed (u : SpecState) (hu : u.mpshared = true) :
    sharedmem_pack u = u := by
  unfold sharedmem_pack
  simp [hu]

lemma sharedmem_unpack_of_unpacked (u : SpecState)
    (hu : u.mpshared = false) : sharedmem_unpack u = u := by
  unfold sharedmem_unpack
  simp [hu]

/-- Claim C9: packing an unpacked spectrum whose shared dictionary is
absent or consistent with its fields, then unpacking, restores `wave`,
`flux`, `ivar` and both resolution-matrix representations to their
pre-pack values; moreover `sharedmem_pack` and `sharedmem_unpack` are
each idempotent: a second consecutive call is a no-op on the state. -/
theorem sharedmem_pack_unpack (s : SpecState) (w f i : List ℚ)
    (R : DiaMat) (C : CsrMat)
    (hshared : s.mpshared = false)
    (hw : s.wave = some w) (hf : s.flux = some f) (hi : s.ivar = some i)
    (hR : s.R = some R) (hC : s.Rcsr = some C)
    (hcons : ∀ m, s.mpshmem = some m → m = shmemOf w f i R C) :
    ((sharedmem_unpack (sharedmem_pack s)).wave = some w ∧
     (sharedmem_unpack (sharedmem_pack s)).flux = some f ∧
     (sharedmem_unpack (sharedmem_pack s)).ivar = some i ∧
     (sharedmem_unpack (sharedmem_pack s)).R = some R ∧
     (sharedmem_unpack (sharedmem_pack s)).Rcsr = some C) ∧
    (∀ t : SpecState, sharedmem_pack (sharedmem_pack t) =
      sharedmem_pack t) ∧
    (∀ t : SpecState, sharedmem_unpack (sharedmem_unpack t) =
      sharedmem_unpack t) := by
  obtain ⟨Rd, Ro, Rs⟩ := R
  obtain ⟨Cd, Ci, Cp, Cs⟩ := C
  refine ⟨?_, ?_, ?_⟩
  · have hpackeq : sharedmem_pack s =
        { wave := none, flux := none, ivar := none, R := none,
          Rcsr := none, mpshared := true,
          mpshmem := some (shmemOf w f i ⟨Rd, Ro, Rs⟩ ⟨Cd, Ci, Cp, Cs⟩) } := by
      unfold sharedmem_pack
      rcases hm : s.mpshmem with _ | m
      · simp [hshared, hw, hf, hi, hR, hC]
      · have hmeq := hcons m hm
        subst hmeq
        simp [hshared]
    rw [hpackeq]
    unfold sharedmem_unpack
    simp [shmemOf]
  · intro t
    by_cases ht : t.mpshared = true
    · rw [sharedmem_pack_of_packed t ht]
      exact sharedmem_pack_of_packed t ht
    · have h2 : (sharedmem_pack t).mpshared = true := by
        unfold sharedmem_pack
        simp [Bool.eq_false_iff.mpr ht]
      exact sharedmem_pack_of_packed _ h2
  · intro t
    by_cases ht : t.mpshared = true
    · rcases hm : t.mpshmem with _ | m
      · have h1 : sharedmem_unpack t = t := by
          unfold sharedmem_unpack
          simp [ht, hm]
        rw [h1]
        exact h1
      · have h2 : (sharedmem_unpack t).mpshared = false := by
          unfold sharedmem_unpack
          simp [ht, hm]
        exact sharedmem_unpack_of_unpacked _ h2
    · rw [sharedmem_unpack_of_unpacked t (Bool.eq_false_iff.mpr ht)]
      exact sharedmem_unpack_of_unpacked t (Bool.eq_false_iff.mpr ht)

/-- Claim C9 witness: a concrete freshly-constructed (never packed)
spectrum state round-trips through pack and unpack with its wavelength
array restored. -/
theorem sharedmem_pack_unpack_witness :
    (sharedmem_unpack (sharedmem_pack
      (⟨some [1], some [2], some [3], some ⟨[[4]], [0], (1, 1)⟩,
        some ⟨[5], [0], [0, 1], (1, 1)⟩, false, none⟩ : SpecState))).wave =
      some [1] := by
  exact (sharedmem_pack_unpack _ [1] [2] [3] ⟨[[4]], [0], (1, 1)⟩
    ⟨[5], [0], [0, 1], (1, 1)⟩ rfl rfl rfl rfl rfl rfl
    (fun m h => by cases h)).1.1

end Redrock
